import Mathlib

/-!
Shallow embedding of the core of the BuscadorDGI repository:
the flat-file credential store (`src/db.py`), the provider retry wrapper
(`src/services/yf_client.py`), the caller-side read-through cache helper and
JSON sanitizer (`src/services/finance_data.py`), and — modelled from the
specification, because `src/services/cache_store.py` and
`src/services/usage_limits.py` are not present in the source tree — the TTL
key-value cache and the per-day usage limiter.

Python dictionaries that keep insertion order are embedded as association
lists (`List (String × α)`); `dict[k] = v` replaces the first binding of `k`
in place or appends a fresh binding at the end, exactly as CPython does.
External library functions (`hashlib.pbkdf2_hmac`, `base64.b64encode`,
`base64.b64decode`) are not code of this repository; they enter the
development as explicit function parameters, and the few facts the proofs
need about them (determinism is free; base64 round-trip and non-emptiness
are hypotheses) are stated where used.  Exceptions are embedded as `Option`
or `Except`: a `none`/`error` result is a raised exception, and a Python
`try/except` that returns a default becomes `Option.getD`.
-/

namespace BuscadorDGI

/-! ## Association lists with CPython dict semantics -/

/-- Lookup of the first binding of a key (`d.get(k)`). -/
def assocGet {κ α : Type} [DecidableEq κ] : List (κ × α) → κ → Option α
  | [], _ => Option.none
  | (k', v) :: rest, k => if k' = k then some v else assocGet rest k

/-- `d[k] = v` on an insertion-ordered dict: replace the first binding in
place, or append a new binding at the end. -/
def assocSet {κ α : Type} [DecidableEq κ] : List (κ × α) → κ → α → List (κ × α)
  | [], k, v => [(k, v)]
  | (k', v') :: rest, k, v =>
      if k' = k then (k, v) :: rest else (k', v') :: assocSet rest k v

/-- Number of bindings of a key in the list. -/
def assocCount {κ α : Type} [DecidableEq κ] (l : List (κ × α)) (k : κ) : Nat :=
  (l.filter (fun p => p.1 = k)).length

@[simp] theorem assocGet_nil {κ α : Type} [DecidableEq κ] (k : κ) :
    assocGet ([] : List (κ × α)) k = Option.none := rfl

@[simp] theorem assocGet_cons {κ α : Type} [DecidableEq κ] (k' k : κ) (v : α)
    (rest : List (κ × α)) :
    assocGet ((k', v) :: rest) k = if k' = k then some v else assocGet rest k := rfl

@[simp] theorem assocSet_nil {κ α : Type} [DecidableEq κ] (k : κ) (v : α) :
    assocSet ([] : List (κ × α)) k v = [(k, v)] := rfl

@[simp] theorem assocSet_cons {κ α : Type} [DecidableEq κ] (k' k : κ) (v' v : α)
    (rest : List (κ × α)) :
    assocSet ((k', v') :: rest) k v =
      if k' = k then (k, v) :: rest else (k', v') :: assocSet rest k v := rfl

theorem assocGet_assocSet_self {κ α : Type} [DecidableEq κ]
    (l : List (κ × α)) (k : κ) (v : α) :
    assocGet (assocSet l k v) k = some v := by
  induction l with
  | nil => simp
  | cons p rest ih =>
      obtain ⟨k', v'⟩ := p
      by_cases h : k' = k <;> simp [h, ih]

theorem assocGet_assocSet_ne {κ α : Type} [DecidableEq κ]
    (l : List (κ × α)) (k k' : κ) (v : α) (h : k ≠ k') :
    assocGet (assocSet l k v) k' = assocGet l k' := by
  induction l with
  | nil => simp [h]
  | cons p rest ih =>
      obtain ⟨k₀, v₀⟩ := p
      by_cases h₀ : k₀ = k
      · subst h₀
        simp [h, if_neg h]
      · simp only [assocSet_cons, if_neg h₀, assocGet_cons]
        by_cases h₁ : k₀ = k' <;> simp [h₁, ih]

/-- The keys of an association list. -/
def assocKeys {κ α : Type} (l : List (κ × α)) : List κ := l.map Prod.fst

theorem assocKeys_assocSet {κ α : Type} [DecidableEq κ]
    (l : List (κ × α)) (k : κ) (v : α) :
    assocKeys (assocSet l k v) = assocKeys l ∨
      assocKeys (assocSet l k v) = assocKeys l ++ [k] := by
  induction l with
  | nil => right; rfl
  | cons p rest ih =>
      obtain ⟨k', v'⟩ := p
      by_cases h : k' = k
      · left; simp [assocSet, h, assocKeys]
      · rcases ih with ih | ih
        · left; simp [assocSet, h, assocKeys] at ih ⊢; exact ih
        · right; simp [assocSet, h, assocKeys] at ih ⊢; exact ih

theorem assocSet_keys_nodup {κ α : Type} [DecidableEq κ]
    (l : List (κ × α)) (k : κ) (v : α) (h : (assocKeys l).Nodup) :
    (assocKeys (assocSet l k v)).Nodup := by
  induction l with
  | nil => simp [assocKeys]
  | cons p rest ih =>
      obtain ⟨k', v'⟩ := p
      simp only [assocKeys, List.map_cons, List.nodup_cons] at h
      by_cases hk : k' = k
      · subst hk
        simpa [assocSet, assocKeys, List.nodup_cons] using h
      · have hrest := ih h.2
        rcases assocKeys_assocSet rest k v with heq | heq
        · simp only [assocSet, if_neg hk, assocKeys, List.map_cons, List.nodup_cons]
          refine ⟨?_, hrest⟩
          rw [show (assocSet rest k v).map Prod.fst = assocKeys (assocSet rest k v) from rfl, heq]
          exact h.1
        · simp only [assocSet, if_neg hk, assocKeys, List.map_cons, List.nodup_cons]
          refine ⟨?_, hrest⟩
          rw [show (assocSet rest k v).map Prod.fst = assocKeys (assocSet rest k v) from rfl, heq]
          simp only [List.mem_append, List.mem_singleton]
          rintro (hmem | rfl)
          · exact h.1 hmem
          · exact hk rfl

theorem assocCount_eq_count {κ α : Type} [DecidableEq κ] (l : List (κ × α)) (k : κ) :
    assocCount l k = (assocKeys l).count k := by
  induction l with
  | nil => rfl
  | cons p rest ih =>
      obtain ⟨k', v'⟩ := p
      simp only [assocCount, List.filter_cons, assocKeys, List.map_cons,
        List.count_cons] at *
      by_cases h : k' = k
      · simp [h, ih]
      · simp [h, ih]

/-! ## Python string primitives used by `src/db.py`

`str.strip()` (trim ASCII whitespace at both ends), `str.lower()`
(modelled on the ASCII range, which covers the letters of every email the
claims quantify over), and `int(str)` (accept optional surrounding
whitespace, an optional sign and a non-empty run of decimal digits;
anything else raises `ValueError`, embedded as `Option.none`). -/

/-- Characters treated as whitespace by `str.strip()` (ASCII subset),
identified by code point. -/
def pyIsSpace (c : Char) : Bool :=
  c.toNat = 32 ∨ c.toNat = 9 ∨ c.toNat = 10 ∨ c.toNat = 13 ∨ c.toNat = 11 ∨ c.toNat = 12

/-- Remove the trailing run of whitespace characters. -/
def stripRight : List Char → List Char
  | [] => []
  | c :: rest =>
      let r := stripRight rest
      if r = [] ∧ pyIsSpace c then [] else c :: r

/-- `str.strip()` on the character list: drop the leading and the trailing
whitespace run. -/
def pyStripList (l : List Char) : List Char :=
  stripRight (l.dropWhile pyIsSpace)

/-- `str.lower()` on one character (ASCII range), by code point. -/
def pyLowerChar (c : Char) : Char :=
  if 65 ≤ c.toNat ∧ c.toNat ≤ 90 then Char.ofNat (c.toNat + 32) else c

/-- `str.strip().lower()` composed, on character lists. -/
def pyNormList (l : List Char) : List Char :=
  (pyStripList l).map pyLowerChar

/-- `src/db.py` `_norm_email`: `(email or "").strip().lower()`. -/
def _norm_email (email : String) : String :=
  ⟨pyNormList email.data⟩

/-- Value of a decimal digit run, most significant first. -/
def digitsVal (l : List Char) : Nat :=
  l.foldl (fun acc c => acc * 10 + (c.toNat - '0'.toNat)) 0

/-- The digit run Python `int()` accepts after the optional sign: a
non-empty sequence of ASCII decimal digits, optionally grouped by single
underscores strictly between digits (`"1_000"` parses, `"_1"`, `"1_"` and
`"1__0"` raise). -/
def pyDigitRun : List Char → Bool
  | [] => false
  | [c] => c.isDigit
  | c :: '_' :: rest => c.isDigit && pyDigitRun rest
  | c :: rest => c.isDigit && pyDigitRun rest

/-- Python `int(s)` (ASCII digits): strips whitespace, accepts an optional
sign and then an underscore-grouped digit run; raises (`Option.none`)
otherwise. -/
def pyInt (s : String) : Option Int :=
  let t := pyStripList s.data
  let signDigits : Int × List Char :=
    match t with
    | '+' :: rest => (1, rest)
    | '-' :: rest => (-1, rest)
    | l => (1, l)
  if pyDigitRun signDigits.2 then
    some (signDigits.1 * (digitsVal (signDigits.2.filter (fun c => ¬ c = '_')) : Int))
  else
    Option.none

/-! ## Credential store (`src/db.py`)

A user record is the Python dict written by `upsert_user` / read back from
`users.json`; its fields are modelled as optional strings (`Option.none` =
key absent from the dict).  `hashlib.pbkdf2_hmac` and base64 coding are
external library functions and appear as explicit parameters; byte strings
are `List Nat`.  A raised exception is `Option.none`. -/

/-- A user dict: values of the JSON document, all string-valued in the
format written by this code. `Option.none` models an absent key. -/
structure UserRec where
  role : Option String
  created_at : Option String
  algo : Option String
  iterations : Option String
  salt_b64 : Option String
  hash_b64 : Option String
  deriving DecidableEq, Repr

/-- The external functions `src/db.py` calls out to: PBKDF2-HMAC-SHA256
(password, salt bytes, iteration count ↦ 32 derived-key bytes) and base64
encoding/decoding.  `b64decode` raises (`Option.none`) on invalid input. -/
structure HashCfg where
  pbkdf2 : String → List Nat → Nat → List Nat
  b64encode : List Nat → String
  b64decode : String → Option (List Nat)

/-- `src/db.py` `hash_password(password, *, salt_b64=None, iterations=200000)`.
`freshSalt` is the value `os.urandom(16)` would draw on this call; the
Python truthiness test `if salt_b64:` makes both `None` and `""` take the
fresh-salt branch.  `Option.none` is a raised exception (`b64decode`
failing, or `pbkdf2_hmac` rejecting `iterations < 1`). -/
def hash_password (cfg : HashCfg) (password : String) (salt_b64 : Option String)
    (iterations : Int) (freshSalt : List Nat) : Option UserRec :=
  let saltR : Option (List Nat) :=
    match salt_b64 with
    | Option.none => some freshSalt
    | some s => if s = "" then some freshSalt else cfg.b64decode s
  match saltR with
  | Option.none => Option.none
  | some salt =>
      if iterations < 1 then Option.none
      else
        some
          { role := Option.none
            created_at := Option.none
            algo := some "pbkdf2_sha256"
            iterations := some (toString iterations)
            salt_b64 := some (cfg.b64encode salt)
            hash_b64 := some (cfg.b64encode (cfg.pbkdf2 password salt iterations.toNat)) }

/-- Body of the `try:` block of `src/db.py` `verify_password`;
`Option.none` is an exception escaping to the `except` clause. -/
def verify_password_try (cfg : HashCfg) (password : String) (meta : UserRec)
    (freshSalt : List Nat) : Option Bool :=
  if meta.algo ≠ some "pbkdf2_sha256" then some false
  else
    match pyInt (meta.iterations.getD "200000") with
    | Option.none => Option.none
    | some its =>
        let salt_s := meta.salt_b64.getD ""
        let expected := meta.hash_b64.getD ""
        match hash_password cfg password (some salt_s) its freshSalt with
        | Option.none => Option.none
        | some computed => some (computed.hash_b64.getD "" = expected)

/-- `src/db.py` `verify_password(password, meta)`: the `except Exception`
clause turns any raised exception into `False`. -/
def verify_password (cfg : HashCfg) (password : String) (meta : UserRec)
    (freshSalt : List Nat) : Bool :=
  (verify_password_try cfg password meta freshSalt).getD false

/-- The persisted `users.json` dict (raw keys as stored on disk). -/
def Users := List (String × UserRec)

/-- `src/db.py` `load_users` after a successful read of a JSON dict:
every entry with a dict value is kept under its normalized key; a later
duplicate overwrites an earlier one (`out[_norm_email(k)] = v`). -/
def load_users (file : List (String × UserRec)) : List (String × UserRec) :=
  file.foldl (fun out p => assocSet out (_norm_email p.1) p.2) []

/-- `src/db.py` `upsert_user(email, password, role)`: load, hash with the
default 200000 iterations and a fresh salt, store under the normalized
email, save, and return the stored record.  `now` is `_now_iso()`'s value.
The result pairs the saved dict with the returned record. -/
def upsert_user (cfg : HashCfg) (file : List (String × UserRec))
    (email password role now : String) (freshSalt : List Nat) :
    Option (List (String × UserRec) × UserRec) :=
  let email_n := _norm_email email
  let users := load_users file
  match hash_password cfg password Option.none 200000 freshSalt with
  | Option.none => Option.none
  | some meta =>
      let record := { meta with role := some role, created_at := some now }
      some (assocSet users email_n record, record)

/-- `src/db.py` `get_user_by_email(email)`: `load_users().get(_norm_email(email))`. -/
def get_user_by_email (file : List (String × UserRec)) (email : String) :
    Option UserRec :=
  assocGet (load_users file) (_norm_email email)

/-- `src/db.py` `has_any_user()`: `len(load_users()) > 0`. -/
def has_any_user (file : List (String × UserRec)) : Bool :=
  (load_users file).length > 0

/-! ## Normalization is idempotent, and `load_users` is a fixed point on
already-normalized stores -/

theorem charOfNat_toNat (n : Nat) (h : n < 55296) : (Char.ofNat n).toNat = n := by
  unfold Char.ofNat
  rw [dif_pos (Or.inl h)]
  simp [Char.ofNatAux, Char.toNat]
  rfl

theorem pyLowerChar_toNat (c : Char) :
    (pyLowerChar c).toNat =
      if 65 ≤ c.toNat ∧ c.toNat ≤ 90 then c.toNat + 32 else c.toNat := by
  unfold pyLowerChar
  by_cases h : 65 ≤ c.toNat ∧ c.toNat ≤ 90
  · rw [if_pos h, if_pos h, charOfNat_toNat _ (by omega)]
  · rw [if_neg h, if_neg h]

theorem pyIsSpace_pyLowerChar (c : Char) : pyIsSpace (pyLowerChar c) = pyIsSpace c := by
  simp only [pyIsSpace, pyLowerChar_toNat]
  by_cases h : 65 ≤ c.toNat ∧ c.toNat ≤ 90
  · rw [if_pos h]
    simp only [decide_eq_decide]
    omega
  · rw [if_neg h]

theorem pyLowerChar_idem (c : Char) : pyLowerChar (pyLowerChar c) = pyLowerChar c := by
  have hn : ¬(65 ≤ (pyLowerChar c).toNat ∧ (pyLowerChar c).toNat ≤ 90) := by
    rw [pyLowerChar_toNat]
    by_cases h : 65 ≤ c.toNat ∧ c.toNat ≤ 90
    · rw [if_pos h]; omega
    · rw [if_neg h]; omega
  nth_rewrite 1 [pyLowerChar]
  rw [if_neg hn]

theorem dropWhile_pyIsSpace_idem (l : List Char) :
    (l.dropWhile pyIsSpace).dropWhile pyIsSpace = l.dropWhile pyIsSpace := by
  induction l with
  | nil => rfl
  | cons c rest ih => by_cases h : pyIsSpace c <;> simp [List.dropWhile_cons, h, ih]

theorem stripRight_idem (l : List Char) : stripRight (stripRight l) = stripRight l := by
  induction l with
  | nil => rfl
  | cons c rest ih =>
      simp only [stripRight]
      by_cases h : stripRight rest = [] ∧ pyIsSpace c = true
      · rw [if_pos h]; rfl
      · rw [if_neg h]
        simp only [stripRight, ih]
        rw [if_neg h]

/-- `stripRight` keeps the head of a non-empty result equal to the input head. -/
theorem stripRight_eq_nil_or_cons (c : Char) (rest : List Char) :
    stripRight (c :: rest) = [] ∨ ∃ t, stripRight (c :: rest) = c :: t := by
  simp only [stripRight]
  by_cases h : stripRight rest = [] ∧ pyIsSpace c = true
  · left; rw [if_pos h]
  · right; exact ⟨_, by rw [if_neg h]⟩

theorem head_dropWhile_false (p : Char → Bool) (l : List Char) (c : Char) (t : List Char)
    (h : l.dropWhile p = c :: t) : p c = false := by
  induction l with
  | nil => simp at h
  | cons x xs ih =>
      by_cases hx : p x
      · rw [List.dropWhile_cons, if_pos hx] at h
        exact ih h
      · rw [List.dropWhile_cons, if_neg hx] at h
        cases h
        simpa using hx

/-- A stripped list has no leading whitespace left. -/
theorem dropWhile_pyStripList (l : List Char) :
    (pyStripList l).dropWhile pyIsSpace = pyStripList l := by
  unfold pyStripList
  cases hd : l.dropWhile pyIsSpace with
  | nil => rfl
  | cons c t =>
      have hc : pyIsSpace c = false := head_dropWhile_false pyIsSpace l c t hd
      rcases stripRight_eq_nil_or_cons c t with h0 | ⟨t', h0⟩
      · rw [h0]; rfl
      · rw [h0, List.dropWhile_cons, if_neg (by simp [hc])]

theorem pyStripList_idem (l : List Char) : pyStripList (pyStripList l) = pyStripList l := by
  nth_rewrite 1 [pyStripList]
  rw [dropWhile_pyStripList]
  unfold pyStripList
  rw [stripRight_idem]

theorem stripRight_map_pyLowerChar (l : List Char) :
    stripRight (l.map pyLowerChar) = (stripRight l).map pyLowerChar := by
  induction l with
  | nil => rfl
  | cons c rest ih =>
      simp only [List.map_cons, stripRight, ih, pyIsSpace_pyLowerChar]
      by_cases h : stripRight rest = [] ∧ pyIsSpace c = true
      · rw [if_pos ⟨by simp [h.1], h.2⟩, if_pos h]
        rfl
      · have h' : ¬((stripRight rest).map pyLowerChar = [] ∧ pyIsSpace c = true) := by
          intro hx
          exact h ⟨by simpa using hx.1, hx.2⟩
        rw [if_neg h', if_neg h]
        rfl

theorem dropWhile_map_pyLowerChar (l : List Char) :
    (l.map pyLowerChar).dropWhile pyIsSpace = (l.dropWhile pyIsSpace).map pyLowerChar := by
  induction l with
  | nil => rfl
  | cons c rest ih =>
      by_cases h : pyIsSpace c <;>
        simp [List.dropWhile_cons, pyIsSpace_pyLowerChar, h, ih]

/-- Stripping commutes with lowercasing. -/
theorem pyStripList_map_pyLowerChar (l : List Char) :
    pyStripList (l.map pyLowerChar) = (pyStripList l).map pyLowerChar := by
  unfold pyStripList
  rw [dropWhile_map_pyLowerChar, stripRight_map_pyLowerChar]

theorem pyNormList_idem (l : List Char) : pyNormList (pyNormList l) = pyNormList l := by
  unfold pyNormList
  rw [pyStripList_map_pyLowerChar, pyStripList_idem, List.map_map]
  congr 1
  funext c
  exact pyLowerChar_idem c

/-- `_norm_email` is idempotent. -/
theorem norm_email_idem (email : String) : _norm_email (_norm_email email) = _norm_email email := by
  unfold _norm_email
  exact congrArg String.mk (pyNormList_idem email.data)

theorem assocSet_ne_nil {κ α : Type} [DecidableEq κ] (l : List (κ × α)) (k : κ) (v : α) :
    assocSet l k v ≠ [] := by
  cases l with
  | nil => simp
  | cons p rest =>
      obtain ⟨k', v'⟩ := p
      by_cases h : k' = k <;> simp [assocSet, h]

theorem assocGet_some_mem {κ α : Type} [DecidableEq κ] (l : List (κ × α)) (k : κ) (v : α)
    (h : assocGet l k = some v) : k ∈ assocKeys l := by
  induction l with
  | nil => simp at h
  | cons p rest ih =>
      obtain ⟨k', v'⟩ := p
      by_cases hk : k' = k
      · simp [assocKeys, hk]
      · rw [assocGet_cons, if_neg hk] at h
        simp [assocKeys] at ih ⊢
        right
        exact ih h

theorem assocSet_of_not_mem {κ α : Type} [DecidableEq κ] (l : List (κ × α)) (k : κ) (v : α)
    (h : k ∉ assocKeys l) : assocSet l k v = l ++ [(k, v)] := by
  induction l with
  | nil => rfl
  | cons p rest ih =>
      obtain ⟨k', v'⟩ := p
      simp only [assocKeys, List.map_cons, List.mem_cons] at h
      push_neg at h
      rw [assocSet_cons, if_neg (fun he => h.1 he.symm), List.cons_append]
      congr 1
      exact ih h.2

/-- One folding step of `load_users`. -/
def loadStep (out : List (String × UserRec)) (p : String × UserRec) :
    List (String × UserRec) :=
  assocSet out (_norm_email p.1) p.2

theorem load_users_eq_foldl (file : List (String × UserRec)) :
    load_users file = file.foldl loadStep [] := rfl

theorem foldl_loadStep_keys_nodup (file acc : List (String × UserRec))
    (h : (assocKeys acc).Nodup) : (assocKeys (file.foldl loadStep acc)).Nodup := by
  induction file generalizing acc with
  | nil => exact h
  | cons p rest ih => exact ih _ (assocSet_keys_nodup _ _ _ h)

/-- The keys of the loaded store are `Nodup`. -/
theorem load_users_keys_nodup (file : List (String × UserRec)) :
    (assocKeys (load_users file)).Nodup :=
  foldl_loadStep_keys_nodup file [] (by simp [assocKeys])

theorem foldl_loadStep_keys_norm (file acc : List (String × UserRec))
    (h : ∀ k ∈ assocKeys acc, _norm_email k = k) :
    ∀ k ∈ assocKeys (file.foldl loadStep acc), _norm_email k = k := by
  induction file generalizing acc with
  | nil => exact h
  | cons p rest ih =>
      refine ih _ ?_
      intro k hk
      rcases assocKeys_assocSet acc (_norm_email p.1) p.2 with heq | heq
      · exact h k (by rwa [loadStep, heq] at hk)
      · rw [loadStep, heq] at hk
        rcases List.mem_append.1 hk with hk | hk
        · exact h k hk
        · rw [List.mem_singleton] at hk
          subst hk
          exact norm_email_idem _

/-- Every key of the loaded store is normalization-fixed. -/
theorem load_users_keys_norm (file : List (String × UserRec)) :
    ∀ k ∈ assocKeys (load_users file), _norm_email k = k :=
  foldl_loadStep_keys_norm file [] (by simp [assocKeys])

theorem foldl_loadStep_of_clean (file acc : List (String × UserRec))
    (hnorm : ∀ k ∈ assocKeys file, _norm_email k = k)
    (hnd : (assocKeys (acc ++ file)).Nodup) :
    file.foldl loadStep acc = acc ++ file := by
  induction file generalizing acc with
  | nil => simp
  | cons p rest ih =>
      obtain ⟨k, v⟩ := p
      have hk : _norm_email k = k := hnorm k (by simp [assocKeys])
      have hnotin : k ∉ assocKeys acc := by
        intro hmem
        simp only [assocKeys, List.map_append, List.map_cons] at hnd
        rcases List.nodup_append.1 hnd with ⟨-, -, hdisj⟩
        exact hdisj hmem (by simp [assocKeys])
      have hstep : loadStep acc (k, v) = acc ++ [(k, v)] := by
        rw [loadStep]
        simpa [hk] using assocSet_of_not_mem acc k v hnotin
      rw [List.foldl_cons, hstep, ih (acc ++ [(k, v)])]
      · simp
      · intro k' hk'
        exact hnorm k' (by simp [assocKeys] at hk' ⊢; exact Or.inr hk')
      · simpa [assocKeys] using hnd

/-- `load_users` is the identity on a store whose keys are already
normalized and duplicate-free — in particular on any store it has itself
produced and `upsert_user` has extended. -/
theorem load_users_of_clean (file : List (String × UserRec))
    (hnorm : ∀ k ∈ assocKeys file, _norm_email k = k)
    (hnd : (assocKeys file).Nodup) : load_users file = file := by
  rw [load_users_eq_foldl, foldl_loadStep_of_clean file [] hnorm (by simpa using hnd)]
  simp

theorem foldl_loadStep_ne_nil (file acc : List (String × UserRec)) (h : acc ≠ []) :
    file.foldl loadStep acc ≠ [] := by
  induction file generalizing acc with
  | nil => exact h
  | cons p rest ih => exact ih _ (assocSet_ne_nil _ _ _)

/-- A non-empty users file loads to a non-empty store. -/
theorem load_users_ne_nil (file : List (String × UserRec)) (h : file ≠ []) :
    load_users file ≠ [] := by
  cases file with
  | nil => exact absurd rfl h
  | cons p rest =>
      rw [load_users_eq_foldl, List.foldl_cons]
      exact foldl_loadStep_ne_nil rest _ (assocSet_ne_nil _ _ _)

/-- A concrete instantiation of the external function bundle, used to
evaluate the theorems at explicit inputs: a toy key-derivation function and
an identity-style byte/string coding. -/
def demoCfg : HashCfg :=
  { pbkdf2 := fun p s i => [p.length % 256, s.length % 256, i % 256]
    b64encode := fun l => String.mk (l.map Char.ofNat)
    b64decode := fun s => some (s.data.map Char.toNat) }

/-! ## Claim theorems: credential store -/

/-- C1. Credential round-trip: for every email, password and role, the
record returned by `upsert_user(email, password, role)` satisfies
`verify_password(password, record) = True`, for any base64 coding that
round-trips on the fresh salt (as the real `base64` module does) and
whatever fresh salt a later `verify_password` call might draw. -/
theorem credential_roundtrip (cfg : HashCfg) (file : List (String × UserRec))
    (email password role now : String) (freshSalt fresh2 : List Nat)
    (h1 : cfg.b64encode freshSalt ≠ "")
    (h2 : cfg.b64decode (cfg.b64encode freshSalt) = some freshSalt) :
    ∃ saved record,
      upsert_user cfg file email password role now freshSalt = some (saved, record) ∧
        verify_password cfg password record fresh2 = true := by
  have hpy : pyInt (toString (200000 : Int)) = some 200000 := by decide
  refine ⟨_, _, rfl, ?_⟩
  simp only [verify_password, verify_password_try, upsert_user, hash_password]
  simp [hpy, h1, h2]

/-- Witness for C1 at concrete inputs, with the toy external functions. -/
theorem credential_roundtrip_witness :
    ∃ saved record,
      upsert_user demoCfg [] "Admin@X.com" "secret1" "admin" "t0" [65, 66] =
          some (saved, record) ∧
        verify_password demoCfg "secret1" record [7] = true :=
  credential_roundtrip demoCfg [] "Admin@X.com" "secret1" "admin" "t0" [65, 66] [7]
    (by decide) (by decide)

/-- Counterexample to C2 as stated: a record with its `iterations` key
missing is not rejected.  `int(meta.get("iterations", "200000"))` defaults
the missing key, so a record whose hash was derived with the default
200000 iterations (salt and hash intact) verifies as `True`. -/
theorem verify_password_missing_iterations_true :
    ({ role := Option.none, created_at := Option.none,
       algo := some "pbkdf2_sha256", iterations := Option.none,
       salt_b64 := some "AB",
       hash_b64 := some (demoCfg.b64encode (demoCfg.pbkdf2 "pw" [65, 66] 200000)) } :
        UserRec).iterations = Option.none ∧
      verify_password demoCfg "pw"
        { role := Option.none, created_at := Option.none,
          algo := some "pbkdf2_sha256", iterations := Option.none,
          salt_b64 := some "AB",
          hash_b64 := some (demoCfg.b64encode (demoCfg.pbkdf2 "pw" [65, 66] 200000)) }
        [] = true :=
  ⟨rfl, by decide⟩

/-- C2 (amended). `verify_password` is total by construction (the `except`
clause maps every raised exception to `False`), and returns `False` on
each of the rejection conditions: unrecognized algorithm identifier,
malformed (unparsable) iteration count, iteration count the
key-derivation function rejects, undecodable salt, and a recomputed hash
that differs from the stored one (in particular any non-matching
password).  A record with a missing `iterations` key is not rejected:
the code defaults it to `"200000"` and verification proceeds, so such a
record still verifies when its stored hash matches the recomputation at
200000 iterations. -/
theorem verify_password_rejects_or_defaults (cfg : HashCfg) (password : String)
    (meta : UserRec) (freshSalt : List Nat) :
    ((meta.algo ≠ some "pbkdf2_sha256" ∨
      pyInt (meta.iterations.getD "200000") = Option.none ∨
      (∃ its, pyInt (meta.iterations.getD "200000") = some its ∧ its < 1) ∨
      (meta.salt_b64.getD "" ≠ "" ∧ cfg.b64decode (meta.salt_b64.getD "") = Option.none) ∨
      (∃ its salt, pyInt (meta.iterations.getD "200000") = some its ∧ 1 ≤ its ∧
        (if meta.salt_b64.getD "" = "" then salt = freshSalt
         else cfg.b64decode (meta.salt_b64.getD "") = some salt) ∧
        cfg.b64encode (cfg.pbkdf2 password salt its.toNat) ≠ meta.hash_b64.getD "")) →
      verify_password cfg password meta freshSalt = false) ∧
    (meta.algo = some "pbkdf2_sha256" → meta.iterations = Option.none →
      ∀ salt, meta.salt_b64.getD "" ≠ "" →
        cfg.b64decode (meta.salt_b64.getD "") = some salt →
        meta.hash_b64.getD "" = cfg.b64encode (cfg.pbkdf2 password salt 200000) →
        verify_password cfg password meta freshSalt = true) := by
  constructor
  · intro h
    by_cases halgo : meta.algo = some "pbkdf2_sha256"
    case neg =>
      simp [verify_password, verify_password_try, halgo]
    case pos =>
      rcases h with h | h | h | h | h
      · exact absurd halgo h
      · simp [verify_password, verify_password_try, halgo, h]
      · obtain ⟨its, hits, hlt⟩ := h
        by_cases hsalt : meta.salt_b64.getD "" = ""
        · simp [verify_password, verify_password_try, hash_password, halgo, hits, hsalt, hlt]
        · cases hdec : cfg.b64decode (meta.salt_b64.getD "") with
          | none =>
              simp [verify_password, verify_password_try, hash_password, halgo, hits,
                hsalt, hdec]
          | some salt =>
              simp [verify_password, verify_password_try, hash_password, halgo, hits,
                hsalt, hdec, hlt]
      · obtain ⟨hne, hdec⟩ := h
        simp [verify_password, verify_password_try, hash_password, halgo, hne, hdec]
        cases pyInt (meta.iterations.getD "200000") <;> simp
      · obtain ⟨its, salt, hits, hge, hsalt, hne⟩ := h
        by_cases hs : meta.salt_b64.getD "" = ""
        · rw [if_pos hs] at hsalt
          subst hsalt
          simp [verify_password, verify_password_try, hash_password, halgo, hits, hs,
            show ¬ its < 1 by omega, hne]
        · rw [if_neg hs] at hsalt
          simp [verify_password, verify_password_try, hash_password, halgo, hits, hs,
            hsalt, show ¬ its < 1 by omega, hne]
  · intro halgo hiter salt hne hdec hhash
    have hpy : pyInt "200000" = some 200000 := by decide
    simp [verify_password, verify_password_try, hash_password, halgo, hiter, hpy, hne,
      hdec, hhash]

/-- Witness for the amended C2: a wrong-algorithm record is rejected, and
a missing-`iterations` record with a matching default-derived hash
verifies. -/
theorem verify_password_rejects_or_defaults_witness :
    verify_password demoCfg "pw"
        { role := Option.none, created_at := Option.none, algo := some "md5",
          iterations := Option.none, salt_b64 := Option.none, hash_b64 := Option.none }
        [] = false ∧
      verify_password demoCfg "secret"
        { role := Option.none, created_at := Option.none,
          algo := some "pbkdf2_sha256", iterations := Option.none,
          salt_b64 := some "AB",
          hash_b64 := some (demoCfg.b64encode (demoCfg.pbkdf2 "secret" [65, 66] 200000)) }
        [] = true :=
  ⟨(verify_password_rejects_or_defaults demoCfg "pw" _ []).1 (Or.inl (by decide)),
    (verify_password_rejects_or_defaults demoCfg "secret" _ []).2 rfl rfl
      [65, 66] (by decide) (by decide) (by decide)⟩

/-- A store whose keys are all normalization-fixed and duplicate-free:
the shape of everything `load_users` produces and `upsert_user` saves. -/
def CleanStore (l : List (String × UserRec)) : Prop :=
  (∀ k ∈ assocKeys l, _norm_email k = k) ∧ (assocKeys l).Nodup

theorem cleanStore_load_users (file : List (String × UserRec)) :
    CleanStore (load_users file) :=
  ⟨load_users_keys_norm file, load_users_keys_nodup file⟩

theorem cleanStore_assocSet (l : List (String × UserRec)) (email : String) (v : UserRec)
    (h : CleanStore l) : CleanStore (assocSet l (_norm_email email) v) := by
  refine ⟨?_, assocSet_keys_nodup _ _ _ h.2⟩
  intro k hk
  rcases assocKeys_assocSet l (_norm_email email) v with heq | heq
  · exact h.1 k (heq ▸ hk)
  · rw [heq] at hk
    rcases List.mem_append.1 hk with hk | hk
    · exact h.1 k hk
    · rw [List.mem_singleton] at hk
      subst hk
      exact norm_email_idem email

theorem load_users_of_cleanStore (l : List (String × UserRec)) (h : CleanStore l) :
    load_users l = l :=
  load_users_of_clean l h.1 h.2

theorem assocCount_one_of_clean (l : List (String × UserRec)) (k : String) (v : UserRec)
    (h : CleanStore l) (hget : assocGet l k = some v) : assocCount l k = 1 := by
  rw [assocCount_eq_count]
  exact List.count_eq_one_of_mem h.2 (assocGet_some_mem l k v hget)

/-- C6. Email normalization and uniqueness: after `upsert_user`, the saved
store holds exactly one record under the normalized email;
`get_user_by_email` finds that record from any variant normalizing to the
same key; a second upsert through such a variant overwrites the same
single record. -/
theorem email_normalization_unique (cfg : HashCfg) (file : List (String × UserRec))
    (email variant password password2 role role2 now now2 : String)
    (freshSalt freshSalt2 : List Nat)
    (hvar : _norm_email variant = _norm_email email) :
    ∃ saved record,
      upsert_user cfg file email password role now freshSalt = some (saved, record) ∧
        assocCount saved (_norm_email email) = 1 ∧
        get_user_by_email saved variant = some record ∧
        ∃ saved2 record2,
          upsert_user cfg saved variant password2 role2 now2 freshSalt2 =
              some (saved2, record2) ∧
            assocCount saved2 (_norm_email email) = 1 ∧
            get_user_by_email saved2 email = some record2 := by
  have key : ∀ (f : List (String × UserRec)) (e pw r n : String) (fs : List Nat),
      ∃ record, upsert_user cfg f e pw r n fs =
        some (assocSet (load_users f) (_norm_email e) record, record) := by
    intro f e pw r n fs
    exact ⟨_, rfl⟩
  obtain ⟨rec1, h1⟩ := key file email password role now freshSalt
  have hclean : CleanStore (assocSet (load_users file) (_norm_email email) rec1) :=
    cleanStore_assocSet _ email rec1 (cleanStore_load_users file)
  obtain ⟨rec2, h2⟩ :=
    key (assocSet (load_users file) (_norm_email email) rec1) variant password2 role2
      now2 freshSalt2
  refine ⟨_, rec1, h1, ?_, ?_, ?_⟩
  · exact assocCount_one_of_clean _ _ _ hclean (assocGet_assocSet_self _ _ _)
  · rw [get_user_by_email, load_users_of_cleanStore _ hclean, hvar]
    exact assocGet_assocSet_self _ _ _
  · refine ⟨_, rec2, h2, ?_, ?_⟩
    · rw [load_users_of_cleanStore _ hclean, hvar]
      have hclean2 := cleanStore_assocSet _ email rec2 hclean
      exact assocCount_one_of_clean _ _ _ hclean2 (assocGet_assocSet_self _ _ _)
    · rw [get_user_by_email, load_users_of_cleanStore _ hclean, hvar]
      have hclean2 := cleanStore_assocSet _ email rec2 hclean
      rw [load_users_of_cleanStore _ hclean2]
      exact assocGet_assocSet_self _ _ _

/-- Witness for C6 at concrete inputs: `"  Admin@X.com "` and
`"admin@x.COM"` normalize to the same key. -/
theorem email_normalization_unique_witness :
    ∃ saved record,
      upsert_user demoCfg [] "  Admin@X.com " "pw1" "admin" "t0" [1] =
          some (saved, record) ∧
        assocCount saved (_norm_email "  Admin@X.com ") = 1 ∧
        get_user_by_email saved "admin@x.COM" = some record ∧
        ∃ saved2 record2,
          upsert_user demoCfg saved "admin@x.COM" "pw2" "user" "t1" [2] =
              some (saved2, record2) ∧
            assocCount saved2 (_norm_email "  Admin@X.com ") = 1 ∧
            get_user_by_email saved2 "  Admin@X.com " = some record2 :=
  email_normalization_unique demoCfg [] "  Admin@X.com " "admin@x.COM" "pw1" "pw2"
    "admin" "user" "t0" "t1" [1] [2] (by decide)

/-- C7. `has_any_user` is `False` exactly when the users file holds no
records, and `True` otherwise. -/
theorem has_any_user_iff_empty (file : List (String × UserRec)) :
    has_any_user file = false ↔ file = [] := by
  constructor
  · intro h
    by_contra hne
    have := load_users_ne_nil file hne
    simp [has_any_user, List.length_pos] at h
    exact this h
  · rintro rfl
    rfl

/-! ## Storage-error layer (`src/db.py` with a failing filesystem)

`load_users` wraps its read+parse in `try/except` and returns `{}` on any
failure; `save_users` calls `ensure_users_file()` (which swallows its own
errors) and then `USERS_PATH.write_text(...)` with no handler, so a write
failure propagates to the caller. -/

/-- What the `try:` block of `load_users` encounters. -/
inductive ReadOutcome where
  /-- `USERS_PATH.read_text()` raised (unreadable path/file). -/
  | ioError
  /-- `json.loads` raised on the file content. -/
  | jsonError
  /-- `json.loads` returned something that is not a dict. -/
  | nonDict
  /-- A JSON dict was read (values modelled as user records). -/
  | dict (d : List (String × UserRec))

/-- `load_users` over the failing-filesystem model: every failure branch
degrades to the empty store. -/
def load_users_io : ReadOutcome → List (String × UserRec)
  | ReadOutcome.ioError => []
  | ReadOutcome.jsonError => []
  | ReadOutcome.nonDict => []
  | ReadOutcome.dict d => load_users d

/-- `save_users` over the failing-filesystem model: `write_text` has no
exception handler, so an unwritable path raises (`Except.error`). -/
def save_users_io (writeOk : Bool) (users : List (String × UserRec)) :
    Except Unit (List (String × UserRec)) :=
  if writeOk then Except.ok users else Except.error ()

/-- `get_user_by_email` over the failing-filesystem model. -/
def get_user_by_email_io (o : ReadOutcome) (email : String) : Option UserRec :=
  assocGet (load_users_io o) (_norm_email email)

/-- `upsert_user` over the failing-filesystem model: the load degrades,
but the final `save_users(users)` propagates a write failure. -/
def upsert_user_io (cfg : HashCfg) (o : ReadOutcome) (writeOk : Bool)
    (email password role now : String) (freshSalt : List Nat) :
    Except Unit (List (String × UserRec) × UserRec) :=
  let users := load_users_io o
  match hash_password cfg password Option.none 200000 freshSalt with
  | Option.none => Except.error ()
  | some meta =>
      let record := { meta with role := some role, created_at := some now }
      match save_users_io writeOk (assocSet users (_norm_email email) record) with
      | Except.error e => Except.error e
      | Except.ok saved => Except.ok (saved, record)

/-- Counterexample to C5 as stated: with every location unwritable
(`writeOk = false`), the save/upsert operation does not degrade to a
default — it surfaces the storage error to the caller. -/
theorem upsert_surfaces_write_error :
    upsert_user_io demoCfg (ReadOutcome.dict []) false "a@b.c" "pw" "user" "t0" [65] =
      Except.error () := by
  rfl

/-- C5 (amended). The read-side credential operations (`load_users`,
`get_user_by_email`) swallow storage-layer errors and degrade to the
empty/"no user found" result; the write side does not: `save_users` (and
hence `upsert_user`) propagates a write failure to the caller. -/
theorem storage_error_degrade :
    (∀ o : ReadOutcome, o = ReadOutcome.ioError ∨ o = ReadOutcome.jsonError ∨
        o = ReadOutcome.nonDict → load_users_io o = [] ∧
          ∀ email, get_user_by_email_io o email = Option.none) ∧
      ∀ users, save_users_io false users = Except.error () := by
  constructor
  · rintro o (rfl | rfl | rfl) <;>
      exact ⟨rfl, fun email => rfl⟩
  · intro users
    rfl

/-- Witness for C5's amended theorem at a concrete outcome. -/
theorem storage_error_degrade_witness :
    load_users_io ReadOutcome.ioError = [] ∧
      get_user_by_email_io ReadOutcome.ioError "a@b.c" = Option.none ∧
      save_users_io false [] = Except.error () :=
  ⟨(storage_error_degrade.1 ReadOutcome.ioError (Or.inl rfl)).1,
    (storage_error_degrade.1 ReadOutcome.ioError (Or.inl rfl)).2 "a@b.c",
    storage_error_degrade.2 []⟩

/-! ## Usage limiter

Modelled from the spec: `src/services/usage_limits.py` is imported by
`src/pages/analysis.py` (`remaining_searches`, `consume_search`) but the
module itself is not in the source tree.  Per the spec (§3, §4.3): a
per-(user, calendar-day) non-negative counter; `remaining(user_id,
daily_limit) = max(0, daily_limit - count_for_today)`; `consume(user_id,
daily_limit, cost)` checks `count_for_today + cost <= daily_limit`, on
success increments and returns the new remaining count, on failure
returns failure without mutating state; a missing counter counts as 0. -/

/-- Counter storage: (user id, calendar day) ↦ count. -/
abbrev UsageState := List ((String × String) × Nat)

/-- Modelled from the spec: the counter for `user_id` on day `day`, with a
missing counter read as 0. -/
def count_for_today (st : UsageState) (user day : String) : Nat :=
  (assocGet st (user, day)).getD 0

/-- Modelled from the spec: `remaining(user_id, daily_limit) =
max(0, daily_limit - count_for_today)`. -/
def remaining_searches (st : UsageState) (user day : String) (daily_limit : Int) : Int :=
  max 0 (daily_limit - count_for_today st user day)

/-- Modelled from the spec: `consume(user_id, daily_limit, cost)` — check,
then increment and return success with the new remaining count, or fail
without mutating state. -/
def consume_search (st : UsageState) (user day : String) (daily_limit : Int)
    (cost : Nat) : (Bool × Int) × UsageState :=
  let c := count_for_today st user day
  if (c : Int) + cost ≤ daily_limit then
    ((true, max 0 (daily_limit - ((c : Int) + cost))), assocSet st (user, day) (c + cost))
  else
    ((false, max 0 (daily_limit - c)), st)

/-- C3. Starting from zero usage on a day, `consume(u, 3, 1)` succeeds on
each of the first three calls (returning remaining 2, 1, 0) and fails on
the fourth without mutating the counter; `remaining(u, 3)` reads 3, 2, 1,
0 after zero, one, two, three successful consumes. -/
theorem usage_limiter_three_then_fail (user day : String) (st0 : UsageState)
    (h0 : count_for_today st0 user day = 0) :
    remaining_searches st0 user day 3 = 3 ∧
    ∃ st1 st2 st3,
      consume_search st0 user day 3 1 = ((true, 2), st1) ∧
      remaining_searches st1 user day 3 = 2 ∧
      consume_search st1 user day 3 1 = ((true, 1), st2) ∧
      remaining_searches st2 user day 3 = 1 ∧
      consume_search st2 user day 3 1 = ((true, 0), st3) ∧
      remaining_searches st3 user day 3 = 0 ∧
      consume_search st3 user day 3 1 = ((false, 0), st3) := by
  have h1 : count_for_today (assocSet st0 (user, day) 1) user day = 1 := by
    simp [count_for_today, assocGet_assocSet_self]
  have h2 : count_for_today (assocSet (assocSet st0 (user, day) 1) (user, day) 2)
      user day = 2 := by
    simp [count_for_today, assocGet_assocSet_self]
  have h3 : count_for_today
      (assocSet (assocSet (assocSet st0 (user, day) 1) (user, day) 2) (user, day) 3)
      user day = 3 := by
    simp [count_for_today, assocGet_assocSet_self]
  refine ⟨by simp [remaining_searches, h0], assocSet st0 (user, day) 1,
    assocSet (assocSet st0 (user, day) 1) (user, day) 2,
    assocSet (assocSet (assocSet st0 (user, day) 1) (user, day) 2) (user, day) 3,
    ?_, ?_, ?_, ?_, ?_, ?_, ?_⟩
  · simp [consume_search, h0]
  · simp [remaining_searches, h1]
  · simp [consume_search, h1]
  · simp [remaining_searches, h2]
  · simp [consume_search, h2]
  · simp [remaining_searches, h3]
  · simp [consume_search, h3]

/-- Witness for C3 from the empty counter store. -/
theorem usage_limiter_three_then_fail_witness :
    remaining_searches [] "u@x.com" "2026-10-12" 3 = 3 ∧
    ∃ st1 st2 st3,
      consume_search [] "u@x.com" "2026-10-12" 3 1 = ((true, 2), st1) ∧
      remaining_searches st1 "u@x.com" "2026-10-12" 3 = 2 ∧
      consume_search st1 "u@x.com" "2026-10-12" 3 1 = ((true, 1), st2) ∧
      remaining_searches st2 "u@x.com" "2026-10-12" 3 = 1 ∧
      consume_search st2 "u@x.com" "2026-10-12" 3 1 = ((true, 0), st3) ∧
      remaining_searches st3 "u@x.com" "2026-10-12" 3 = 0 ∧
      consume_search st3 "u@x.com" "2026-10-12" 3 1 = ((false, 0), st3) :=
  usage_limiter_three_then_fail "u@x.com" "2026-10-12" [] (by decide)

/-! ## TTL key-value cache

Modelled from the spec: `src/services/cache_store.py` is imported by
`src/services/finance_data.py` (`cache_get`, `cache_set`) and
`src/pages/analysis.py` (`cache_clear_all`) but the module itself is not
in the source tree.  Per the spec (§3, §4.2) and the `kv_cache` schema
that `src/db.py` `get_conn` creates (`key TEXT PRIMARY KEY`, `value_json`,
`created_at INTEGER`, `ttl_seconds` nullable): `get` returns the stored
value unless `now >= created_at + ttl_seconds` (checked only when
`ttl_seconds` is set); `set` overwrites unconditionally, stamping the
current time. -/

/-- A row of the `kv_cache` table. -/
structure CacheEntry (α : Type) where
  value_json : α
  created_at : Int
  ttl_seconds : Option Int
  deriving DecidableEq, Repr

/-- The cache table: `key` is the primary key. -/
abbrev CacheState (α : Type) := List (String × CacheEntry α)

/-- Modelled from the spec: `get(key)` at time `now`. -/
def cache_get {α : Type} (st : CacheState α) (now : Int) (key : String) : Option α :=
  match assocGet st key with
  | Option.none => Option.none
  | some e =>
      match e.ttl_seconds with
      | Option.none => some e.value_json
      | some ttl => if now ≥ e.created_at + ttl then Option.none else some e.value_json

/-- Modelled from the spec: `set(key, value, ttl_seconds)` at time `now`. -/
def cache_set {α : Type} (st : CacheState α) (now : Int) (key : String) (v : α)
    (ttl : Option Int) : CacheState α :=
  assocSet st key { value_json := v, created_at := now, ttl_seconds := ttl }

/-- C4. Cache TTL semantics: a `get` immediately after `set(k, v, ttl)`
with `ttl > 0` returns `v`; a `get` at any time `t ≥ created_at + ttl`
misses; with a null `ttl_seconds` the entry never expires. -/
theorem cache_ttl_expiry {α : Type} (st : CacheState α) (now : Int) (key : String)
    (v : α) (ttl : Int) (httl : 0 < ttl) :
    cache_get (cache_set st now key v (some ttl)) now key = some v ∧
    (∀ t : Int, now + ttl ≤ t →
      cache_get (cache_set st now key v (some ttl)) t key = Option.none) ∧
    (∀ t : Int, cache_get (cache_set st now key v Option.none) t key = some v) := by
  refine ⟨?_, ?_, ?_⟩
  · simp [cache_get, cache_set, assocGet_assocSet_self]
    omega
  · intro t ht
    simp [cache_get, cache_set, assocGet_assocSet_self]
    omega
  · intro t
    simp [cache_get, cache_set, assocGet_assocSet_self]

/-- Witness for C4 at a concrete key, value and TTL. -/
theorem cache_ttl_expiry_witness :
    cache_get (cache_set ([] : CacheState Nat) 100 "yf:quote:AAPL" 42 (some 300)) 100
        "yf:quote:AAPL" = some 42 ∧
    (∀ t : Int, 100 + 300 ≤ t →
      cache_get (cache_set ([] : CacheState Nat) 100 "yf:quote:AAPL" 42 (some 300)) t
          "yf:quote:AAPL" = Option.none) ∧
    (∀ t : Int,
      cache_get (cache_set ([] : CacheState Nat) 100 "yf:quote:AAPL" 42 Option.none) t
          "yf:quote:AAPL" = some 42) :=
  cache_ttl_expiry [] 100 "yf:quote:AAPL" 42 300 (by norm_num)

/-! ## Provider retry wrapper (`src/services/yf_client.py`)

`yf_call(fn, max_attempts=4)` loops `attempt = 1 .. max_attempts`,
returning `fn()`'s value on the first call that does not raise; on an
exception it records it, breaks after the last attempt, and otherwise
sleeps `2**(attempt-1) + uniform(0, 0.5)` seconds before retrying; when
every attempt raised it raises `YFError(str(last))`.  The n-th invocation
of `fn` is modelled by `results n` (`Except.error` = raise, carrying the
exception's string); `jitter a` is the random term drawn before the retry
following attempt `a`.  The result carries the value or the `YFError`
message, the number of invocations made, and the sleeps performed. -/

/-- The retry loop over the remaining attempt numbers, with the last
exception seen.  Returns (outcome, number of invocations, sleeps). -/
def yf_try {α : Type} (results : Nat → Except String α) (jitter : Nat → ℚ) :
    List Nat → Option String → Except String α × Nat × List ℚ
  | [], last => (Except.error (last.getD "yfinance error"), 0, [])
  | a :: rest, _last =>
      match results a with
      | Except.ok v => (Except.ok v, 1, [])
      | Except.error e =>
          let r := yf_try results jitter rest (some e)
          (r.1, r.2.1 + 1,
            if rest = [] then [] else ((2 : ℚ) ^ (a - 1) + jitter a) :: r.2.2)

/-- `src/services/yf_client.py` `yf_call(fn, max_attempts=4)`. -/
def yf_call {α : Type} (results : Nat → Except String α) (jitter : Nat → ℚ)
    (max_attempts : Nat) : Except String α × Nat × List ℚ :=
  yf_try results jitter (List.range' 1 max_attempts) Option.none

theorem yf_try_calls_le {α : Type} (results : Nat → Except String α) (jitter : Nat → ℚ)
    (l : List Nat) (last : Option String) :
    (yf_try results jitter l last).2.1 ≤ l.length := by
  induction l generalizing last with
  | nil => simp [yf_try]
  | cons a rest ih =>
      simp only [yf_try, List.length_cons]
      cases results a with
      | ok v => simp
      | error e =>
          simpa using Nat.add_le_add_right (ih (some e)) 1

theorem yf_try_first_ok {α : Type} (results : Nat → Except String α) (jitter : Nat → ℚ)
    (n s k : Nat) (v : α) (last : Option String)
    (hsk : s ≤ k) (hkn : k < s + n) (hok : results k = Except.ok v)
    (hfail : ∀ i, s ≤ i → i < k → ∃ e, results i = Except.error e) :
    yf_try results jitter (List.range' s n) last =
      (Except.ok v, k - s + 1, (List.range' s (k - s)).map
        (fun a => (2 : ℚ) ^ (a - 1) + jitter a)) := by
  induction n generalizing s last with
  | zero => omega
  | succ n ih =>
      rw [List.range'_succ]
      by_cases hks : k = s
      · subst hks
        simp [yf_try, hok]
      · obtain ⟨e, he⟩ := hfail s (le_refl s) (by omega)
        have hrec := ih (s + 1) (some e) (by omega) (by omega)
          (fun i hi hik => hfail i (by omega) hik)
        simp only [yf_try, he, hrec]
        have hne : List.range' (s + 1) n ≠ [] := by
          cases n with
          | zero => omega
          | succ m => rw [List.range'_succ]; exact List.cons_ne_nil _ _
        rw [if_neg hne]
        have hks' : k - s = (k - (s + 1)) + 1 := by omega
        rw [hks', List.range'_succ, List.map_cons]

theorem yf_try_all_fail {α : Type} (results : Nat → Except String α) (jitter : Nat → ℚ)
    (n s : Nat) (last : Option String)
    (hfail : ∀ i, s ≤ i → i < s + n → ∃ e, results i = Except.error e) :
    ∃ msg, yf_try results jitter (List.range' s n) last =
      (Except.error msg, n, (List.range' s (n - 1)).map
        (fun a => (2 : ℚ) ^ (a - 1) + jitter a)) := by
  induction n generalizing s last with
  | zero => exact ⟨last.getD "yfinance error", rfl⟩
  | succ n ih =>
      obtain ⟨e, he⟩ := hfail s (le_refl s) (by omega)
      obtain ⟨msg, hrec⟩ := ih (s + 1) (some e) (fun i hi hik => hfail i (by omega) (by omega))
      rw [List.range'_succ]
      refine ⟨msg, ?_⟩
      simp only [yf_try, he, hrec]
      cases n with
      | zero => simp
      | succ m =>
          have hne : List.range' (s + 1) (m + 1) ≠ [] := by
            rw [List.range'_succ]
            exact List.cons_ne_nil _ _
          rw [if_neg hne]
          have hm : m + 1 + 1 - 1 = (m + 1 - 1) + 1 := by omega
          rw [hm, List.range'_succ, List.map_cons]

/-- C8. Retry wrapper: `yf_call(fn, max_attempts)` invokes `fn` at most
`max_attempts` times; it returns `fn`'s value after `k` invocations when
attempt `k ≤ max_attempts` is the first that does not raise, having slept
`2**(a-1) + jitter(a)` seconds after each failed attempt `a < k`; when
every attempt raises it makes exactly `max_attempts` invocations and
surfaces a single `YFError`. -/
theorem yf_call_retry {α : Type} (results : Nat → Except String α) (jitter : Nat → ℚ)
    (max_attempts : Nat) :
    ((yf_call results jitter max_attempts).2.1 ≤ max_attempts) ∧
    (∀ k v, 1 ≤ k → k ≤ max_attempts → results k = Except.ok v →
      (∀ i, 1 ≤ i → i < k → ∃ e, results i = Except.error e) →
      yf_call results jitter max_attempts =
        (Except.ok v, k, (List.range' 1 (k - 1)).map
          (fun a => (2 : ℚ) ^ (a - 1) + jitter a))) ∧
    ((∀ i, 1 ≤ i → i ≤ max_attempts → ∃ e, results i = Except.error e) →
      ∃ msg, yf_call results jitter max_attempts =
        (Except.error msg, max_attempts, (List.range' 1 (max_attempts - 1)).map
          (fun a => (2 : ℚ) ^ (a - 1) + jitter a))) := by
  refine ⟨?_, ?_, ?_⟩
  · simpa using yf_try_calls_le results jitter (List.range' 1 max_attempts) Option.none
  · intro k v hk1 hkm hok hfail
    have := yf_try_first_ok results jitter max_attempts 1 k v Option.none hk1
      (by omega) hok (fun i hi hik => hfail i hi hik)
    rw [yf_call, this]
    have hk : k - 1 + 1 = k := by omega
    rw [hk]
  · intro hfail
    exact yf_try_all_fail results jitter max_attempts 1 Option.none
      (fun i hi hik => hfail i hi (by omega))

/-- Witness for C8: a producer that raises twice and then returns. -/
theorem yf_call_retry_witness :
    (yf_call (fun n => if n ≤ 2 then Except.error "boom" else Except.ok (7 : Nat))
        (fun _ => 0) 4).2.1 ≤ 4 ∧
      yf_call (fun n => if n ≤ 2 then Except.error "boom" else Except.ok (7 : Nat))
          (fun _ => 0) 4 =
        (Except.ok 7, 3, (List.range' 1 2).map (fun a => (2 : ℚ) ^ (a - 1) + 0)) := by
  have h := yf_call_retry (fun n => if n ≤ 2 then Except.error "boom" else Except.ok (7 : Nat))
    (fun _ => 0) 4
  refine ⟨h.1, ?_⟩
  have h2 := h.2.1 3 7 (by norm_num) (by norm_num) (by norm_num)
    (fun i hi hik => ⟨"boom", by interval_cases i <;> simp⟩)
  simpa using h2

/-! ## JSON sanitizer (`src/services/finance_data.py` `_json_safe`)

Python runtime values reachable by `_json_safe` are embedded as a mutual
inductive: scalars, `datetime`/`date` objects (carrying what
`.isoformat()` returns), containers, numpy scalars (carrying the value
their `int()`/`float()`/`bool()` conversion yields), objects exposing
`.items()` (carrying the dict `dict(x)` builds), and any other object
(carrying what `str(x)` returns).  Python `float`s are kept opaque (their
repr string); `_json_safe` never computes with them. -/

mutual
/-- A Python value, as dispatched on by `_json_safe`'s `isinstance` chain. -/
inductive PyVal where
  | pnone : PyVal
  | pbool (b : Bool) : PyVal
  | pint (n : Int) : PyVal
  | pfloat (repr : String) : PyVal
  | pstr (s : String) : PyVal
  | pdatetime (iso : String) : PyVal
  | pdate (iso : String) : PyVal
  | pdict (entries : PyEntries) : PyVal
  | plist (xs : PyValList) : PyVal
  | ptuple (xs : PyValList) : PyVal
  | pset (xs : PyValList) : PyVal
  | npInt (n : Int) : PyVal
  | npFloat (repr : String) : PyVal
  | npBool (b : Bool) : PyVal
  | objWithItems (entries : PyEntries) (reprStr : String) : PyVal
  | obj (reprStr : String) : PyVal

/-- A Python list of values. -/
inductive PyValList where
  | nil : PyValList
  | cons (x : PyVal) (rest : PyValList) : PyValList

/-- The key/value pairs of a Python dict, in iteration order. -/
inductive PyEntries where
  | nil : PyEntries
  | cons (k : PyVal) (v : PyVal) (rest : PyEntries) : PyEntries
end

/-- `str(x)` for dict keys: exact for strings and the scalar reprs the
embedding carries; any fixed total model of `str` works here, since no
claim constrains the text beyond it being a string. -/
def pyStr : PyVal → String
  | PyVal.pnone => "None"
  | PyVal.pbool true => "True"
  | PyVal.pbool false => "False"
  | PyVal.pint n => toString n
  | PyVal.pfloat r => r
  | PyVal.pstr s => s
  | PyVal.pdatetime iso => iso
  | PyVal.pdate iso => iso
  | PyVal.npInt n => toString n
  | PyVal.npFloat r => r
  | PyVal.npBool true => "True"
  | PyVal.npBool false => "False"
  | PyVal.objWithItems _ r => r
  | PyVal.obj r => r
  | PyVal.pdict _ => "dict"
  | PyVal.plist _ => "list"
  | PyVal.ptuple _ => "tuple"
  | PyVal.pset _ => "set"

mutual
/-- `src/services/finance_data.py` `_json_safe`, by `isinstance` dispatch:
scalars pass through, `datetime`/`date` become their isoformat string,
dicts map `str(k)` over keys and recurse on values, `list`/`tuple`/`set`
become lists of sanitized elements, numpy scalars convert to their Python
counterpart, objects with `.items()` are treated as dicts, and anything
else becomes `str(x)`. -/
def json_safe : PyVal → PyVal
  | PyVal.pnone => PyVal.pnone
  | PyVal.pbool b => PyVal.pbool b
  | PyVal.pint n => PyVal.pint n
  | PyVal.pfloat r => PyVal.pfloat r
  | PyVal.pstr s => PyVal.pstr s
  | PyVal.pdatetime iso => PyVal.pstr iso
  | PyVal.pdate iso => PyVal.pstr iso
  | PyVal.pdict entries => PyVal.pdict (json_safe_entries entries)
  | PyVal.plist xs => PyVal.plist (json_safe_list xs)
  | PyVal.ptuple xs => PyVal.plist (json_safe_list xs)
  | PyVal.pset xs => PyVal.plist (json_safe_list xs)
  | PyVal.npInt n => PyVal.pint n
  | PyVal.npFloat r => PyVal.pfloat r
  | PyVal.npBool b => PyVal.pbool b
  | PyVal.objWithItems entries _ => PyVal.pdict (json_safe_entries entries)
  | PyVal.obj r => PyVal.pstr r

/-- `[_json_safe(v) for v in x]`. -/
def json_safe_list : PyValList → PyValList
  | PyValList.nil => PyValList.nil
  | PyValList.cons x rest => PyValList.cons (json_safe x) (json_safe_list rest)

/-- `{str(k): _json_safe(v) for k, v in x.items()}`. -/
def json_safe_entries : PyEntries → PyEntries
  | PyEntries.nil => PyEntries.nil
  | PyEntries.cons k v rest =>
      PyEntries.cons (PyVal.pstr (pyStr k)) (json_safe v) (json_safe_entries rest)
end

mutual
/-- A value built only from None, bool, int, float, str, lists of such
values and string-keyed dicts of such values — i.e. JSON-serializable. -/
def isJsonSafe : PyVal → Bool
  | PyVal.pnone => true
  | PyVal.pbool _ => true
  | PyVal.pint _ => true
  | PyVal.pfloat _ => true
  | PyVal.pstr _ => true
  | PyVal.plist xs => isJsonSafeList xs
  | PyVal.pdict entries => isJsonSafeEntries entries
  | _ => false

/-- Every element JSON-safe. -/
def isJsonSafeList : PyValList → Bool
  | PyValList.nil => true
  | PyValList.cons x rest => isJsonSafe x && isJsonSafeList rest

/-- Every key a string, every value JSON-safe. -/
def isJsonSafeEntries : PyEntries → Bool
  | PyEntries.nil => true
  | PyEntries.cons k v rest =>
      (match k with | PyVal.pstr _ => true | _ => false) &&
        isJsonSafe v && isJsonSafeEntries rest
end

mutual
theorem json_safe_isJsonSafe : ∀ x : PyVal, isJsonSafe (json_safe x) = true
  | PyVal.pnone => rfl
  | PyVal.pbool _ => rfl
  | PyVal.pint _ => rfl
  | PyVal.pfloat _ => rfl
  | PyVal.pstr _ => rfl
  | PyVal.pdatetime _ => rfl
  | PyVal.pdate _ => rfl
  | PyVal.pdict entries => json_safe_entries_isJsonSafe entries
  | PyVal.plist xs => json_safe_list_isJsonSafe xs
  | PyVal.ptuple xs => json_safe_list_isJsonSafe xs
  | PyVal.pset xs => json_safe_list_isJsonSafe xs
  | PyVal.npInt _ => rfl
  | PyVal.npFloat _ => rfl
  | PyVal.npBool _ => rfl
  | PyVal.objWithItems entries _ => json_safe_entries_isJsonSafe entries
  | PyVal.obj _ => rfl

theorem json_safe_list_isJsonSafe :
    ∀ xs : PyValList, isJsonSafeList (json_safe_list xs) = true
  | PyValList.nil => rfl
  | PyValList.cons x rest => by
      rw [json_safe_list, isJsonSafeList, json_safe_isJsonSafe x,
        json_safe_list_isJsonSafe rest]
      rfl

theorem json_safe_entries_isJsonSafe :
    ∀ entries : PyEntries, isJsonSafeEntries (json_safe_entries entries) = true
  | PyEntries.nil => rfl
  | PyEntries.cons k v rest => by
      rw [json_safe_entries, isJsonSafeEntries, json_safe_isJsonSafe v,
        json_safe_entries_isJsonSafe rest]
      rfl
end

/-- C10. `_json_safe` is total (a Lean function by construction — every
`isinstance` chain ends in the `str(x)` fallback, so no input raises) and
always returns a JSON-serializable value: one built only from None, bool,
int, float, str, lists and string-keyed dicts of such values; and it
returns None, bool, int, float and str inputs unchanged. -/
theorem json_safe_total_and_serializable :
    (∀ x : PyVal, isJsonSafe (json_safe x) = true) ∧
    json_safe PyVal.pnone = PyVal.pnone ∧
    (∀ b, json_safe (PyVal.pbool b) = PyVal.pbool b) ∧
    (∀ n, json_safe (PyVal.pint n) = PyVal.pint n) ∧
    (∀ r, json_safe (PyVal.pfloat r) = PyVal.pfloat r) ∧
    (∀ s, json_safe (PyVal.pstr s) = PyVal.pstr s) :=
  ⟨json_safe_isJsonSafe, rfl, fun _ => rfl, fun _ => rfl, fun _ => rfl, fun _ => rfl⟩

/-! ## Caller-side read-through (`src/services/finance_data.py`
`_cache_get_or_set`)

The producer `fn` is modelled as a thunk and the result's third component
counts how many times it was invoked; the cache primitives are the
spec-modelled `cache_get`/`cache_set` above (their module is not in the
source tree). -/

/-- `src/services/finance_data.py` `_cache_get_or_set(key, ttl, fn)`:
return the cached hit as is, else invoke `fn` once, JSON-sanitize, store
under `key` with `ttl` and return the sanitized value.  Result:
(returned value, cache state afterwards, number of `fn()` invocations). -/
def _cache_get_or_set (st : CacheState PyVal) (now : Int) (key : String) (ttl : Int)
    (fn : Unit → PyVal) : PyVal × CacheState PyVal × Nat :=
  match cache_get st now key with
  | some hit => (hit, st, 0)
  | Option.none =>
      let val := json_safe (fn ())
      (val, cache_set st now key val (some ttl), 1)

/-- C9. Read-through: on a hit `_cache_get_or_set` returns the cached
value without invoking `fn` and leaves the cache unchanged; on a miss it
invokes `fn` exactly once, stores the JSON-sanitized result under the key
with the given TTL (so an immediate re-read hits it), and returns it. -/
theorem cache_get_or_set_read_through (st : CacheState PyVal) (now : Int)
    (key : String) (ttl : Int) (fn : Unit → PyVal) (httl : 0 < ttl) :
    (∀ hit, cache_get st now key = some hit →
      _cache_get_or_set st now key ttl fn = (hit, st, 0)) ∧
    (cache_get st now key = Option.none →
      _cache_get_or_set st now key ttl fn =
          (json_safe (fn ()), cache_set st now key (json_safe (fn ())) (some ttl), 1) ∧
        cache_get (_cache_get_or_set st now key ttl fn).2.1 now key =
          some (json_safe (fn ()))) := by
  constructor
  · intro hit hhit
    simp [_cache_get_or_set, hhit]
  · intro hmiss
    refine ⟨by simp [_cache_get_or_set, hmiss], ?_⟩
    have hstep : (_cache_get_or_set st now key ttl fn).2.1 =
        cache_set st now key (json_safe (fn ())) (some ttl) := by
      simp [_cache_get_or_set, hmiss]
    rw [hstep]
    simp [cache_get, cache_set, assocGet_assocSet_self]
    omega

/-- Witness for C9: a miss on the empty cache invokes the producer once
and an immediate re-read hits the sanitized value. -/
theorem cache_get_or_set_read_through_witness :
    _cache_get_or_set [] 50 "yf:profile:PEP" 300 (fun _ => PyVal.npInt 9) =
        (PyVal.pint 9, cache_set [] 50 "yf:profile:PEP" (PyVal.pint 9) (some 300), 1) ∧
      cache_get (_cache_get_or_set [] 50 "yf:profile:PEP" 300
          (fun _ => PyVal.npInt 9)).2.1 50 "yf:profile:PEP" = some (PyVal.pint 9) :=
  (cache_get_or_set_read_through [] 50 "yf:profile:PEP" 300 (fun _ => PyVal.npInt 9)
      (by norm_num)).2 rfl

end BuscadorDGI
